import Mathlib

/-!
Verification of the pose/rotation subsystem of a cryo-EM image simulation
library (`cryojax/simulator/pose.py`).

The embedding is a direct translation of the Python source:

* `SO3` models the rotation-group collaborator (`jaxlie.SO3`): a quaternion
  stored in (w, x, y, z) order, with Hamilton-product composition (`@`),
  conjugation as `inverse`, axis-angle constructors `from_*_radians`, and
  vector application `q * (0, v) * q.inverse` keeping the imaginary part.
* `Arr` models a numeric array as a shape list together with row-major flat
  data; `rotate_coordinates`, `compute_shifts`, `make_euler_rotation` and the
  `Pose` methods are translated clause by clause, with Python exceptions
  becoming `Except.error` values.

Machine floats become real numbers; float tolerance claims become exact
equalities over `ℝ`/`ℂ`.
-/

set_option autoImplicit false

open Real

/-- Quaternion model of the external rotation-group collaborator
(`jaxlie.SO3`): components stored in `wxyz` order. -/
structure SO3 where
  w : ℝ
  x : ℝ
  y : ℝ
  z : ℝ

noncomputable section

/-- Hamilton product: models `SO3.multiply` (the `@` operator of the
collaborator). -/
def SO3.mul (a b : SO3) : SO3 :=
  ⟨a.w * b.w - a.x * b.x - a.y * b.y - a.z * b.z,
   a.w * b.x + a.x * b.w + a.y * b.z - a.z * b.y,
   a.w * b.y - a.x * b.z + a.y * b.w + a.z * b.x,
   a.w * b.z + a.x * b.y - a.y * b.x + a.z * b.w⟩

/-- Models `SO3.inverse`: the collaborator negates the imaginary components
(quaternion conjugation; the true group inverse only for unit quaternions). -/
def SO3.inverse (q : SO3) : SO3 := ⟨q.w, -q.x, -q.y, -q.z⟩

/-- Models `SO3.apply` on a single 3-vector: pad the target with a zero real
part, conjugate by the quaternion, and keep the imaginary part. -/
def SO3.apply (q : SO3) (v : ℝ × ℝ × ℝ) : ℝ × ℝ × ℝ :=
  let p := (q.mul ⟨0, v.1, v.2.1, v.2.2⟩).mul q.inverse
  (p.x, p.y, p.z)

/-- Models `SO3.from_x_radians θ` = exp of the axis-angle vector `(θ,0,0)`. -/
def SO3.from_x_radians (θ : ℝ) : SO3 := ⟨Real.cos (θ / 2), Real.sin (θ / 2), 0, 0⟩

/-- Models `SO3.from_y_radians θ` = exp of the axis-angle vector `(0,θ,0)`. -/
def SO3.from_y_radians (θ : ℝ) : SO3 := ⟨Real.cos (θ / 2), 0, Real.sin (θ / 2), 0⟩

/-- Models `SO3.from_z_radians θ` = exp of the axis-angle vector `(0,0,θ)`. -/
def SO3.from_z_radians (θ : ℝ) : SO3 := ⟨Real.cos (θ / 2), 0, 0, Real.sin (θ / 2)⟩

/-- The norm-preservation invariant of a genuine rotation operator: the
quaternion has unit norm (§3 of the design; non-unit quaternions are outside
the collaborator's contract). -/
def SO3.unitNorm (q : SO3) : Prop :=
  q.w ^ 2 + q.x ^ 2 + q.y ^ 2 + q.z ^ 2 = 1

/-- A numeric array: its shape and its row-major flat data. -/
structure Arr where
  shape : List ℕ
  data : List ℝ

/-- The `ValueError` message raised by `rotate_coordinates` for an
unrecognised rank (quoted verbatim from the source). -/
def invalidShapeMsg : String :=
  "coords must either be shape (N, 3) or (N1, N2, N3, 3)"

/-- Error for a `reshape` whose total element count does not match
(behaviour of the array collaborator's reshape). -/
def reshapeErrMsg : String :=
  "cannot reshape array"

/-- Error for applying the rotation collaborator to a row that is not a
3-vector (its `apply` asserts a shape-(3,) target). -/
def applyErrMsg : String :=
  "SO3.apply expects a 3-vector target"

/-- Error for a matrix product with mismatched contraction axes
(behaviour of the array collaborator's matmul). -/
def matmulErrMsg : String :=
  "matmul: incompatible contraction dimensions"

/-- Error for looking up a rotation constructor for an axis character outside
x, y, z (Python `AttributeError` from `getattr`). -/
def attrErrMsg : String :=
  "AttributeError: SO3 has no rotation constructor for this axis"

/-- Error for indexing past the end of the rotation-constructor list (Python
`IndexError` when the convention has fewer than three characters). -/
def indexErrMsg : String :=
  "IndexError: list index out of range"

/-- Fuel-driven worker for `chunksOf`: peel off `k` elements at a time.  The
fuel only bounds the recursion depth; `chunksOf` supplies enough of it that
the fuel never runs out while elements remain (for positive `k`). -/
def chunksOfGo (k : ℕ) : ℕ → List ℝ → List (List ℝ)
  | _, [] => []
  | 0, _ :: _ => []
  | fuel + 1, a :: l => ((a :: l).take k) :: chunksOfGo k fuel ((a :: l).drop k)

/-- Split a flat list into consecutive chunks of `k` elements (the rows of an
`(N, k)` view of row-major data). -/
def chunksOf (k : ℕ) (l : List ℝ) : List (List ℝ) :=
  chunksOfGo k l.length l

/-- Apply the rotation to one row: models one call of the vmapped
`rotation.apply`, which requires a 3-vector. -/
def applyRow (rotation : SO3) : List ℝ → Except String (List ℝ)
  | [a, b, c] =>
    let r := rotation.apply (a, b, c)
    .ok [r.1, r.2.1, r.2.2]
  | _ => .error applyErrMsg

/-- Models `jax.vmap(rotation.apply)` over the leading axis: apply the
rotation to every row, propagating a failure of the per-row shape assert. -/
def applyRows (rotation : SO3) : List (List ℝ) → Except String (List (List ℝ))
  | [] => .ok []
  | r :: rest =>
    match applyRow rotation r with
    | .error msg => .error msg
    | .ok r2 =>
      match applyRows rotation rest with
      | .error msg => .error msg
      | .ok rest2 => .ok (r2 :: rest2)

/-- Translation of `rotate_coordinates(coords, rotation)`: rank 2 vmaps the
rotation over the rows; rank 4 reshapes to `(N1*N2*N3, 3)`, vmaps, and
reshapes back; any other rank raises the `ValueError` quoted in
`invalidShapeMsg`. -/
def rotate_coordinates (coords : Arr) (rotation : SO3) : Except String Arr :=
  match coords.shape with
  | [n, k] =>
    match applyRows rotation (chunksOf k coords.data) with
    | .error msg => .error msg
    | .ok transformed => .ok ⟨[n, k], transformed.flatten⟩
  | [n1, n2, n3, _] =>
    if coords.data.length = n1 * n2 * n3 * 3 then
      match applyRows rotation (chunksOf 3 coords.data) with
      | .error msg => .error msg
      | .ok transformed => .ok ⟨[n1, n2, n3, 3], transformed.flatten⟩
    else .error reshapeErrMsg
  | _ => .error invalidShapeMsg

/-- Dot product of two equally long coordinate rows. -/
def dotList (u v : List ℝ) : ℝ := (List.zipWith (fun a b => a * b) u v).sum

/-- Models `jnp.matmul(coords, xy)` for `coords` of shape `(..., k)` against a
vector `xy` of shape `(k,)`: contract the last axis, failing when the lengths
disagree. -/
def matmulVec : List (List ℝ) → List ℝ → Except String (List ℝ)
  | [], _ => .ok []
  | e :: rest, xy =>
    if e.length = xy.length then
      match matmulVec rest xy with
      | .error msg => .error msg
      | .ok ts => .ok (dotList e xy :: ts)
    else .error matmulErrMsg

/-- Translation of `compute_shifts(coords, xy)`:
`jnp.exp(-1.0j * (2 * jnp.pi * jnp.matmul(coords, xy)))`. -/
def compute_shifts (coords : List (List ℝ)) (xy : List ℝ) : Except String (List ℂ) :=
  match matmulVec coords xy with
  | .error msg => .error msg
  | .ok ts => .ok (ts.map fun t : ℝ => Complex.exp (-Complex.I * (2 * (Real.pi : ℂ) * (t : ℂ))))

/-- Translation of `Pose.rotate(coordinates, real)`: use the inverse of the
cached rotation when `real` is true, the rotation itself otherwise. -/
def Pose.rotate (rotation : SO3) (coordinates : Arr) (real : Bool) : Except String Arr :=
  rotate_coordinates coordinates (if real then rotation.inverse else rotation)

/-- Translation of `Pose.shifts(freqs)`: take the in-plane part
`offset[0:2]` of the cached 3-vector offset and call `compute_shifts`. -/
def Pose.shifts (offset_x offset_y offset_z : ℝ) (freqs : List (List ℝ)) :
    Except String (List ℂ) :=
  compute_shifts freqs [offset_x, offset_y]

/-- Translation of `jnp.deg2rad`. -/
def deg2rad (a : ℝ) : ℝ := a * (Real.pi / 180)

/-- Models `getattr(SO3, f"from_{axis}_radians")`: look up the axis-angle
constructor for one convention character, raising `AttributeError` for a
character outside x, y, z. -/
def axisRotationGetter (c : Char) : Except String (ℝ → SO3) :=
  if c = 'x' then .ok SO3.from_x_radians
  else if c = 'y' then .ok SO3.from_y_radians
  else if c = 'z' then .ok SO3.from_z_radians
  else .error attrErrMsg

/-- Models the list comprehension
`[getattr(SO3, f"from_{axis}_radians") for axis in convention]`, which
resolves every character before any rotation is built. -/
def gatherRotations : List Char → Except String (List (ℝ → SO3))
  | [] => .ok []
  | c :: rest =>
    match axisRotationGetter c with
    | .error msg => .error msg
    | .ok f =>
      match gatherRotations rest with
      | .error msg => .error msg
      | .ok fs => .ok (f :: fs)

/-- Translation of `make_euler_rotation(phi, theta, psi, convention,
intrinsic, degrees)`: build the constructor list from the convention string,
convert to radians when `degrees` holds, build `R1, R2, R3` from the first
three constructors (an `IndexError` when there are fewer than three), and
compose `R1 @ R2 @ R3` when intrinsic, `R3 @ R2 @ R1` otherwise. -/
def make_euler_rotation (phi theta psi : ℝ) (convention : String)
    (intrinsic degrees : Bool) : Except String SO3 :=
  match gatherRotations convention.toList with
  | .error msg => .error msg
  | .ok rotations =>
    match rotations with
    | r1 :: r2 :: r3 :: _ =>
      let phi2 := if degrees then deg2rad phi else phi
      let theta2 := if degrees then deg2rad theta else theta
      let psi2 := if degrees then deg2rad psi else psi
      let R1 := r1 phi2
      let R2 := r2 theta2
      let R3 := r3 psi2
      .ok (if intrinsic then (R1.mul R2).mul R3 else (R3.mul R2).mul R1)
    | _ => .error indexErrMsg

/-- `make_euler_rotation` with its own default arguments:
`convention="zyz"`, `intrinsic=True`, `degrees=False`. -/
def make_euler_rotation_defaults (phi theta psi : ℝ) : Except String SO3 :=
  make_euler_rotation phi theta psi "zyz" true false

/-- Translation of the `EulerPose.rotation` cached property: call
`make_euler_rotation` with the pose's fields and invert the result when the
pose's `inverse` flag holds. -/
def EulerPose.rotation (view_phi view_theta view_psi : ℝ) (convention : String)
    (intrinsic inverse degrees : Bool) : Except String SO3 :=
  match make_euler_rotation view_phi view_theta view_psi convention intrinsic degrees with
  | .error msg => .error msg
  | .ok R => .ok (if inverse then R.inverse else R)

/-- `EulerPose.rotation` with the field defaults of `EulerPose`:
`convention="zyz"`, `intrinsic=True`, `inverse=False`, `degrees=True`. -/
def EulerPose.rotation_defaults (view_phi view_theta view_psi : ℝ) : Except String SO3 :=
  EulerPose.rotation view_phi view_theta view_psi "zyz" true false true

/-- Translation of the `QuaternionPose.rotation` cached property:
`SO3(wxyz=[qw, qx, qy, qz])`, inverted when the `inverse` flag holds. -/
def QuaternionPose.rotation (view_qw view_qx view_qy view_qz : ℝ)
    (inverse : Bool) : SO3 :=
  let R : SO3 := ⟨view_qw, view_qx, view_qy, view_qz⟩
  if inverse then R.inverse else R

/-- The single-axis constructor named by a valid convention character (the
pure counterpart of `axisRotationGetter` on the valid characters). -/
def axisRotationFor (c : Char) : ℝ → SO3 :=
  if c = 'x' then SO3.from_x_radians
  else if c = 'y' then SO3.from_y_radians
  else SO3.from_z_radians

/-- A valid Coordinate Set in the sense of the design: a point cloud of shape
`(N, 3)` or a volume grid of shape `(N1, N2, N3, 3)`, with matching row-major
data length. -/
def validCoords (c : Arr) : Prop :=
  (∃ n, c.shape = [n, 3] ∧ c.data.length = n * 3) ∨
  (∃ n1 n2 n3, c.shape = [n1, n2, n3, 3] ∧ c.data.length = n1 * n2 * n3 * 3)

/-- Whether `needle` occurs as a contiguous substring of `hay`. -/
def strContains (needle hay : String) : Bool :=
  (List.range (hay.toList.length + 1)).any fun i =>
    needle.toList.isPrefixOf (hay.toList.drop i)

end

/-! Quaternion algebra of the collaborator. -/

theorem SO3.apply_inverse_apply (q : SO3) (h : q.unitNorm) (v : ℝ × ℝ × ℝ) :
    q.inverse.apply (q.apply v) = v := by
  obtain ⟨v1, v2, v3⟩ := v
  simp only [SO3.unitNorm] at h
  simp only [SO3.apply, SO3.mul, SO3.inverse, Prod.mk.injEq]
  refine ⟨?_, ?_, ?_⟩
  · linear_combination v1 * (q.w ^ 2 + q.x ^ 2 + q.y ^ 2 + q.z ^ 2 + 1) * h
  · linear_combination v2 * (q.w ^ 2 + q.x ^ 2 + q.y ^ 2 + q.z ^ 2 + 1) * h
  · linear_combination v3 * (q.w ^ 2 + q.x ^ 2 + q.y ^ 2 + q.z ^ 2 + 1) * h

theorem SO3.apply_apply_inverse (q : SO3) (h : q.unitNorm) (v : ℝ × ℝ × ℝ) :
    q.apply (q.inverse.apply v) = v := by
  obtain ⟨v1, v2, v3⟩ := v
  simp only [SO3.unitNorm] at h
  simp only [SO3.apply, SO3.mul, SO3.inverse, Prod.mk.injEq]
  refine ⟨?_, ?_, ?_⟩
  · linear_combination v1 * (q.w ^ 2 + q.x ^ 2 + q.y ^ 2 + q.z ^ 2 + 1) * h
  · linear_combination v2 * (q.w ^ 2 + q.x ^ 2 + q.y ^ 2 + q.z ^ 2 + 1) * h
  · linear_combination v3 * (q.w ^ 2 + q.x ^ 2 + q.y ^ 2 + q.z ^ 2 + 1) * h

/-- C5: `QuaternionPose.rotation` builds the rotation operator from the four
scalars taken as a quaternion in (w, x, y, z) order, and the `inverse` flag
selects the inverse of that operator: with the flag it returns the
collaborator's quaternion inverse, which acts as the two-sided inverse of the
constructed operator on every vector (for a unit quaternion, the only case in
which the quaternion encodes a rotation operator). -/
theorem quaternion_rotation_spec (view_qw view_qx view_qy view_qz : ℝ)
    (h : SO3.unitNorm ⟨view_qw, view_qx, view_qy, view_qz⟩) :
    QuaternionPose.rotation view_qw view_qx view_qy view_qz false =
      (⟨view_qw, view_qx, view_qy, view_qz⟩ : SO3) ∧
    QuaternionPose.rotation view_qw view_qx view_qy view_qz true =
      SO3.inverse ⟨view_qw, view_qx, view_qy, view_qz⟩ ∧
    (∀ v : ℝ × ℝ × ℝ,
      (QuaternionPose.rotation view_qw view_qx view_qy view_qz true).apply
        ((QuaternionPose.rotation view_qw view_qx view_qy view_qz false).apply v) = v ∧
      (QuaternionPose.rotation view_qw view_qx view_qy view_qz false).apply
        ((QuaternionPose.rotation view_qw view_qx view_qy view_qz true).apply v) = v) := by
  refine ⟨rfl, rfl, fun v => ⟨?_, ?_⟩⟩
  · exact SO3.apply_inverse_apply _ h v
  · exact SO3.apply_apply_inverse _ h v

/-- Witness for C5 at the unit quaternion (3/5, 4/5, 0, 0). -/
theorem quaternion_rotation_spec_witness :
    QuaternionPose.rotation (3 / 5) (4 / 5) 0 0 false =
      (⟨3 / 5, 4 / 5, 0, 0⟩ : SO3) ∧
    QuaternionPose.rotation (3 / 5) (4 / 5) 0 0 true =
      SO3.inverse ⟨3 / 5, 4 / 5, 0, 0⟩ ∧
    (∀ v : ℝ × ℝ × ℝ,
      (QuaternionPose.rotation (3 / 5) (4 / 5) 0 0 true).apply
        ((QuaternionPose.rotation (3 / 5) (4 / 5) 0 0 false).apply v) = v ∧
      (QuaternionPose.rotation (3 / 5) (4 / 5) 0 0 false).apply
        ((QuaternionPose.rotation (3 / 5) (4 / 5) 0 0 true).apply v) = v) :=
  quaternion_rotation_spec (3 / 5) (4 / 5) 0 0 (by
    simp only [SO3.unitNorm]
    norm_num)

/-- C2: `Pose.rotate` applies the inverse of the pose's cached rotation when
`real` is true (the default in the source), and applies the cached rotation
directly when `real` is false. -/
theorem pose_rotate_dispatch (rotation : SO3) (coordinates : Arr) :
    Pose.rotate rotation coordinates true =
      rotate_coordinates coordinates rotation.inverse ∧
    Pose.rotate rotation coordinates false =
      rotate_coordinates coordinates rotation :=
  ⟨rfl, rfl⟩

/-! Chunking and batched application lemmas. -/

theorem chunksOfGo_congr (k : ℕ) (hk : k ≠ 0) :
    ∀ (f1 : ℕ) (l : List ℝ) (f2 : ℕ), l.length ≤ f1 → l.length ≤ f2 →
      chunksOfGo k f1 l = chunksOfGo k f2 l := by
  intro f1
  induction f1 with
  | zero =>
    intro l f2 h1 _
    have : l = [] := List.eq_nil_of_length_eq_zero (Nat.le_zero.mp h1)
    subst this
    cases f2 <;> rfl
  | succ f ih =>
    intro l f2 h1 h2
    cases l with
    | nil => cases f2 <;> rfl
    | cons a l =>
      cases f2 with
      | zero => simp at h2
      | succ g =>
        simp only [chunksOfGo]
        have hdrop : ((a :: l).drop k).length ≤ f := by
          simp only [List.length_drop, List.length_cons]
          simp only [List.length_cons] at h1
          omega
        have hdrop2 : ((a :: l).drop k).length ≤ g := by
          simp only [List.length_drop, List.length_cons]
          simp only [List.length_cons] at h2
          omega
        rw [ih ((a :: l).drop k) g hdrop hdrop2]

theorem chunksOf_nil (k : ℕ) : chunksOf k [] = [] := rfl

theorem chunksOf_cons (k : ℕ) (hk : k ≠ 0) (a : ℝ) (l : List ℝ) :
    chunksOf k (a :: l) = ((a :: l).take k) :: chunksOf k ((a :: l).drop k) := by
  simp only [chunksOf, List.length_cons, chunksOfGo]
  congr 1
  exact chunksOfGo_congr k hk l.length ((a :: l).drop k) ((a :: l).drop k).length
    (by simp only [List.length_drop, List.length_cons]; omega) (le_refl _)

theorem chunksOf_flatten (k : ℕ) (hk : k ≠ 0) :
    ∀ (n : ℕ) (l : List ℝ), l.length ≤ n → (chunksOf k l).flatten = l := by
  intro n
  induction n with
  | zero =>
    intro l h
    have : l = [] := List.eq_nil_of_length_eq_zero (Nat.le_zero.mp h)
    subst this
    rfl
  | succ m ih =>
    intro l h
    cases l with
    | nil => rfl
    | cons a l =>
      rw [chunksOf_cons k hk a l]
      simp only [List.flatten_cons]
      rw [ih ((a :: l).drop k) (by
        simp only [List.length_drop, List.length_cons]
        simp only [List.length_cons] at h
        omega)]
      exact List.take_append_drop k (a :: l)

theorem chunksOf_three_lengths :
    ∀ (n : ℕ) (l : List ℝ), l.length = 3 * n → ∀ r ∈ chunksOf 3 l, r.length = 3 := by
  intro n
  induction n with
  | zero =>
    intro l h r hr
    have : l = [] := List.eq_nil_of_length_eq_zero (by omega)
    subst this
    simp [chunksOf_nil] at hr
  | succ m ih =>
    intro l h r hr
    cases l with
    | nil => simp at h
    | cons a l =>
      rw [chunksOf_cons 3 (by omega) a l] at hr
      rcases List.mem_cons.mp hr with h1 | h1
      · subst h1
        simp only [List.length_take, List.length_cons]
        simp only [List.length_cons] at h
        omega
      · exact ih ((a :: l).drop 3) (by
          simp only [List.length_drop, List.length_cons]
          simp only [List.length_cons] at h
          omega) r h1

theorem chunksOf_flatten_inv (k : ℕ) (hk : k ≠ 0) :
    ∀ outs : List (List ℝ), (∀ o ∈ outs, o.length = k) →
      chunksOf k outs.flatten = outs := by
  intro outs
  induction outs with
  | nil => intro _; rfl
  | cons o rest ih =>
    intro h
    have ho : o.length = k := h o (List.mem_cons_self o rest)
    have hrest : ∀ r ∈ rest, r.length = k := fun r hr => h r (List.mem_cons_of_mem o hr)
    simp only [List.flatten_cons]
    cases o with
    | nil => exact absurd ho.symm hk
    | cons b o2 =>
      rw [List.cons_append, chunksOf_cons k hk b (o2 ++ rest.flatten)]
      rw [show (b :: (o2 ++ rest.flatten)) = (b :: o2) ++ rest.flatten from rfl]
      rw [List.take_append_of_le_length (by omega), List.drop_append_of_le_length (by omega)]
      rw [List.take_of_length_le (by omega), List.drop_eq_nil_of_le (by omega)]
      simp only [List.nil_append]
      rw [ih hrest]

theorem applyRow_ok_shape (q : SO3) (r o : List ℝ) (h : applyRow q r = .ok o) :
    r.length = 3 ∧ o.length = 3 := by
  match r with
  | [a, b, c] =>
    simp only [applyRow, Except.ok.injEq] at h
    subst h
    exact ⟨rfl, rfl⟩
  | [] => exact absurd h (by simp [applyRow])
  | [a] => exact absurd h (by simp [applyRow])
  | [a, b] => exact absurd h (by simp [applyRow])
  | a :: b :: c :: d :: t => exact absurd h (by simp [applyRow])

theorem applyRows_ok_shape (q : SO3) :
    ∀ rows outs : List (List ℝ), applyRows q rows = .ok outs →
      outs.length = rows.length ∧ ∀ o ∈ outs, o.length = 3 := by
  intro rows
  induction rows with
  | nil =>
    intro outs h
    simp only [applyRows, Except.ok.injEq] at h
    subst h
    exact ⟨rfl, by simp⟩
  | cons r rest ih =>
    intro outs h
    simp only [applyRows] at h
    cases hrow : applyRow q r with
    | error msg => rw [hrow] at h; exact absurd h (by simp)
    | ok r2 =>
      rw [hrow] at h
      cases hrest : applyRows q rest with
      | error msg => rw [hrest] at h; exact absurd h (by simp)
      | ok rest2 =>
        rw [hrest] at h
        simp only [Except.ok.injEq] at h
        subst h
        obtain ⟨hlen, hall⟩ := ih rest2 hrest
        refine ⟨by simp [hlen], ?_⟩
        intro o ho
        rcases List.mem_cons.mp ho with h1 | h1
        · subst h1
          exact (applyRow_ok_shape q r o hrow).2
        · exact hall o h1

theorem applyRows_exists_of_len3 (q : SO3) :
    ∀ rows : List (List ℝ), (∀ r ∈ rows, r.length = 3) →
      ∃ outs, applyRows q rows = .ok outs := by
  intro rows
  induction rows with
  | nil => intro _; exact ⟨[], rfl⟩
  | cons r rest ih =>
    intro h
    have hr : r.length = 3 := h r (List.mem_cons_self r rest)
    obtain ⟨a, b, c, rfl⟩ : ∃ a b c, r = [a, b, c] := by
      match r, hr with
      | [a, b, c], _ => exact ⟨a, b, c, rfl⟩
    obtain ⟨outs, houts⟩ := ih fun r hr => h r (List.mem_cons_of_mem _ hr)
    exact ⟨[(q.apply (a, b, c)).1, (q.apply (a, b, c)).2.1, (q.apply (a, b, c)).2.2] :: outs,
      by simp only [applyRows, applyRow, houts]⟩

/-- C6: rotating a volume grid of shape (N1, N2, N3, 3) and flattening the
result gives exactly the rotation of the flattened (N1·N2·N3, 3) list: both
calls succeed, the flat data agrees element for element, and each output
keeps its input's shape. -/
theorem rotate_grid_flatten_equiv (rotation : SO3) (n1 n2 n3 : ℕ) (data : List ℝ)
    (h : data.length = n1 * n2 * n3 * 3) :
    ∃ g f : Arr,
      rotate_coordinates ⟨[n1, n2, n3, 3], data⟩ rotation = .ok g ∧
      rotate_coordinates ⟨[n1 * n2 * n3, 3], data⟩ rotation = .ok f ∧
      g.data = f.data ∧ g.shape = [n1, n2, n3, 3] ∧ f.shape = [n1 * n2 * n3, 3] := by
  have hrows : ∀ r ∈ chunksOf 3 data, r.length = 3 :=
    chunksOf_three_lengths (n1 * n2 * n3) data (by omega)
  obtain ⟨outs, houts⟩ := applyRows_exists_of_len3 rotation (chunksOf 3 data) hrows
  refine ⟨⟨[n1, n2, n3, 3], outs.flatten⟩, ⟨[n1 * n2 * n3, 3], outs.flatten⟩, ?_, ?_, rfl, rfl, rfl⟩
  · simp only [rotate_coordinates, h, if_pos, houts]
  · simp only [rotate_coordinates, houts]

/-- Witness for C6 on a 1×1×2 grid of two points with the identity
rotation. -/
theorem rotate_grid_flatten_equiv_witness :
    ∃ g f : Arr,
      rotate_coordinates ⟨[1, 1, 2, 3], [1, 2, 3, 4, 5, 6]⟩ ⟨1, 0, 0, 0⟩ = .ok g ∧
      rotate_coordinates ⟨[1 * 1 * 2, 3], [1, 2, 3, 4, 5, 6]⟩ ⟨1, 0, 0, 0⟩ = .ok f ∧
      g.data = f.data ∧ g.shape = [1, 1, 2, 3] ∧ f.shape = [1 * 1 * 2, 3] :=
  rotate_grid_flatten_equiv ⟨1, 0, 0, 0⟩ 1 1 2 [1, 2, 3, 4, 5, 6] rfl

theorem applyRow_inverse_then (q : SO3) (hq : q.unitNorm) (r o : List ℝ)
    (h : applyRow q.inverse r = .ok o) : applyRow q o = .ok r := by
  match r with
  | [a, b, c] =>
    simp only [applyRow, Except.ok.injEq] at h
    subst h
    have hv : q.apply (q.inverse.apply (a, b, c)) = (a, b, c) :=
      SO3.apply_apply_inverse q hq (a, b, c)
    simp only [applyRow]
    have : ((q.inverse.apply (a, b, c)).1, (q.inverse.apply (a, b, c)).2.1,
        (q.inverse.apply (a, b, c)).2.2) = q.inverse.apply (a, b, c) := rfl
    rw [this, hv]
  | [] => exact absurd h (by simp [applyRow])
  | [a] => exact absurd h (by simp [applyRow])
  | [a, b] => exact absurd h (by simp [applyRow])
  | a :: b :: c :: d :: t => exact absurd h (by simp [applyRow])

theorem applyRows_inverse_then (q : SO3) (hq : q.unitNorm) :
    ∀ rows outs : List (List ℝ), applyRows q.inverse rows = .ok outs →
      applyRows q outs = .ok rows := by
  intro rows
  induction rows with
  | nil =>
    intro outs h
    simp only [applyRows, Except.ok.injEq] at h
    subst h
    rfl
  | cons r rest ih =>
    intro outs h
    simp only [applyRows] at h
    cases hrow : applyRow q.inverse r with
    | error msg => rw [hrow] at h; exact absurd h (by simp)
    | ok r2 =>
      rw [hrow] at h
      cases hrest : applyRows q.inverse rest with
      | error msg => rw [hrest] at h; exact absurd h (by simp)
      | ok rest2 =>
        rw [hrest] at h
        simp only [Except.ok.injEq] at h
        subst h
        simp only [applyRows, applyRow_inverse_then q hq r r2 hrow, ih rest2 hrest]

theorem flatten_length_of_len3 :
    ∀ outs : List (List ℝ), (∀ o ∈ outs, o.length = 3) →
      outs.flatten.length = 3 * outs.length := by
  intro outs
  induction outs with
  | nil => intro _; rfl
  | cons o rest ih =>
    intro h
    simp only [List.flatten_cons, List.length_append, List.length_cons,
      h o (List.mem_cons_self o rest), ih fun r hr => h r (List.mem_cons_of_mem o hr)]
    ring

/-- C8: for a pose whose rotation is a genuine (unit-norm) rotation operator
and any valid Coordinate Set, rotating in real space (which applies the
inverse of the cached rotation) and then rotating the result in Fourier space
(which applies the cached rotation itself) returns the original Coordinate
Set exactly. -/
theorem rotate_round_trip (rotation : SO3) (c : Arr)
    (hR : rotation.unitNorm) (hc : validCoords c) :
    ∃ c1 : Arr, Pose.rotate rotation c true = .ok c1 ∧
      Pose.rotate rotation c1 false = .ok c := by
  obtain ⟨shape, data⟩ := c
  rcases hc with ⟨n, hs, hlen⟩ | ⟨n1, n2, n3, hs, hlen⟩
  · simp only at hs hlen
    subst hs
    have hrows : ∀ r ∈ chunksOf 3 data, r.length = 3 :=
      chunksOf_three_lengths n data (by omega)
    obtain ⟨outs, houts⟩ := applyRows_exists_of_len3 rotation.inverse (chunksOf 3 data) hrows
    obtain ⟨_, houts3⟩ := applyRows_ok_shape rotation.inverse (chunksOf 3 data) outs houts
    refine ⟨⟨[n, 3], outs.flatten⟩, ?_, ?_⟩
    · simp only [Pose.rotate, if_pos, rotate_coordinates, houts]
    · rw [show Pose.rotate rotation ⟨[n, 3], outs.flatten⟩ false =
        rotate_coordinates ⟨[n, 3], outs.flatten⟩ rotation from rfl]
      simp only [rotate_coordinates]
      rw [chunksOf_flatten_inv 3 (by omega) outs houts3]
      rw [applyRows_inverse_then rotation hR (chunksOf 3 data) outs houts]
      show Except.ok (Arr.mk [n, 3] (chunksOf 3 data).flatten) = Except.ok (Arr.mk [n, 3] data)
      rw [chunksOf_flatten 3 (by omega) data.length data (le_refl _)]
  · simp only at hs hlen
    subst hs
    have hrows : ∀ r ∈ chunksOf 3 data, r.length = 3 :=
      chunksOf_three_lengths (n1 * n2 * n3) data (by omega)
    obtain ⟨outs, houts⟩ := applyRows_exists_of_len3 rotation.inverse (chunksOf 3 data) hrows
    obtain ⟨hcount, houts3⟩ := applyRows_ok_shape rotation.inverse (chunksOf 3 data) outs houts
    have hflatlen : outs.flatten.length = data.length := by
      have hdl : (chunksOf 3 data).flatten.length = data.length := by
        rw [chunksOf_flatten 3 (by omega) data.length data (le_refl _)]
      have h33 : (chunksOf 3 data).flatten.length = 3 * (chunksOf 3 data).length :=
        flatten_length_of_len3 (chunksOf 3 data) hrows
      have h34 : outs.flatten.length = 3 * outs.length := flatten_length_of_len3 outs houts3
      omega
    refine ⟨⟨[n1, n2, n3, 3], outs.flatten⟩, ?_, ?_⟩
    · simp only [Pose.rotate, rotate_coordinates, hlen, if_pos, houts]
    · rw [show Pose.rotate rotation ⟨[n1, n2, n3, 3], outs.flatten⟩ false =
        rotate_coordinates ⟨[n1, n2, n3, 3], outs.flatten⟩ rotation from rfl]
      simp only [rotate_coordinates, hflatlen, hlen, if_pos]
      rw [chunksOf_flatten_inv 3 (by omega) outs houts3]
      rw [applyRows_inverse_then rotation hR (chunksOf 3 data) outs houts]
      show Except.ok (Arr.mk [n1, n2, n3, 3] (chunksOf 3 data).flatten) =
        Except.ok (Arr.mk [n1, n2, n3, 3] data)
      rw [chunksOf_flatten 3 (by omega) data.length data (le_refl _)]

/-- Witness for C8: identity rotation on a single-point cloud. -/
theorem rotate_round_trip_witness :
    ∃ c1 : Arr, Pose.rotate ⟨1, 0, 0, 0⟩ ⟨[1, 3], [4, 5, 6]⟩ true = .ok c1 ∧
      Pose.rotate ⟨1, 0, 0, 0⟩ c1 false = .ok ⟨[1, 3], [4, 5, 6]⟩ :=
  rotate_round_trip ⟨1, 0, 0, 0⟩ ⟨[1, 3], [4, 5, 6]⟩
    (by simp only [SO3.unitNorm]; norm_num)
    (Or.inl ⟨1, rfl, rfl⟩)

/-! Translation phase encoder. -/

theorem matmulVec_ok (xy : List ℝ) :
    ∀ coords : List (List ℝ), (∀ e ∈ coords, e.length = xy.length) →
      matmulVec coords xy = .ok (coords.map fun e => dotList e xy) := by
  intro coords
  induction coords with
  | nil => intro _; rfl
  | cons e rest ih =>
    intro h
    have he : e.length = xy.length := h e (List.mem_cons_self e rest)
    simp only [matmulVec, he, if_pos, ih fun r hr => h r (List.mem_cons_of_mem e hr), List.map]

theorem matmulVec_error_of_mem (xy : List ℝ) :
    ∀ coords : List (List ℝ), ∀ e ∈ coords, e.length ≠ xy.length →
      ∃ msg, matmulVec coords xy = .error msg := by
  intro coords
  induction coords with
  | nil => intro e he; exact absurd he (List.not_mem_nil e)
  | cons c rest ih =>
    intro e he hlen
    by_cases hc : c.length = xy.length
    · have hne : e ∈ rest := by
        rcases List.mem_cons.mp he with h1 | h1
        · subst h1; exact absurd hc hlen
        · exact h1
      obtain ⟨msg, hmsg⟩ := ih e hne hlen
      exact ⟨msg, by simp only [matmulVec, hc, if_pos, hmsg]⟩
    · exact ⟨matmulErrMsg, by simp only [matmulVec, hc, if_neg, if_false]⟩

/-- C4: on a frequency grid of 2D entries and an in-plane offset (x, y), the
translation phase encoder succeeds, preserves the entry count, computes
`exp(−i·2π·(kx·x + ky·y))` at every entry (kx, ky), and returns `1` at every
entry when the offset is zero. -/
theorem compute_shifts_spec (freqs : List (List ℝ)) (x y : ℝ)
    (h : ∀ e ∈ freqs, e.length = 2) :
    ∃ out : List ℂ, compute_shifts freqs [x, y] = .ok out ∧
      out.length = freqs.length ∧
      (∀ (i : ℕ) (hi : i < freqs.length) (kx ky : ℝ), freqs.get ⟨i, hi⟩ = [kx, ky] →
        ∀ hi2 : i < out.length,
          out.get ⟨i, hi2⟩ =
            Complex.exp (-Complex.I * (2 * (Real.pi : ℂ) * ((kx * x + ky * y : ℝ) : ℂ)))) ∧
      (x = 0 → y = 0 → ∀ z ∈ out, z = 1) := by
  have hxy : ∀ e ∈ freqs, e.length = ([x, y] : List ℝ).length := by
    intro e he
    rw [h e he]
    rfl
  refine ⟨freqs.map fun e =>
      Complex.exp (-Complex.I * (2 * (Real.pi : ℂ) * ((dotList e [x, y] : ℝ) : ℂ))), ?_, ?_, ?_, ?_⟩
  · simp only [compute_shifts, matmulVec_ok [x, y] freqs hxy, List.map_map]
    rfl
  · simp
  · intro i hi kx ky hget hi2
    have : (freqs.map fun e =>
        Complex.exp (-Complex.I * (2 * (Real.pi : ℂ) * ((dotList e [x, y] : ℝ) : ℂ)))).get ⟨i, hi2⟩ =
        Complex.exp (-Complex.I * (2 * (Real.pi : ℂ) * ((dotList (freqs.get ⟨i, hi⟩) [x, y] : ℝ) : ℂ))) := by
      simp
    rw [this, hget]
    have hdot : dotList [kx, ky] [x, y] = kx * x + ky * y := by
      simp [dotList]
    rw [hdot]
  · intro hx hy z hz
    subst hx
    subst hy
    obtain ⟨e, he, rfl⟩ := List.mem_map.mp hz
    have hdot : dotList e [(0 : ℝ), 0] = 0 := by
      obtain ⟨a, b, rfl⟩ := List.length_eq_two.mp (h e he)
      simp [dotList]
    rw [hdot]
    simp [Complex.exp_zero]

/-- Witness for C4 on a one-entry frequency grid with offset (1/2, 0). -/
theorem compute_shifts_spec_witness :
    ∃ out : List ℂ, compute_shifts [[1, 0]] [1 / 2, 0] = .ok out ∧
      out.length = ([[1, 0]] : List (List ℝ)).length ∧
      (∀ (i : ℕ) (hi : i < ([[1, 0]] : List (List ℝ)).length) (kx ky : ℝ),
        ([[1, 0]] : List (List ℝ)).get ⟨i, hi⟩ = [kx, ky] →
        ∀ hi2 : i < out.length,
          out.get ⟨i, hi2⟩ =
            Complex.exp (-Complex.I * (2 * (Real.pi : ℂ) * ((kx * (1 / 2) + ky * 0 : ℝ) : ℂ)))) ∧
      ((1 / 2 : ℝ) = 0 → (0 : ℝ) = 0 → ∀ z ∈ out, z = 1) :=
  compute_shifts_spec [[1, 0]] (1 / 2) 0
    (fun e he => by rw [List.mem_singleton.mp he]; rfl)

/-- C9 counterexample: a frequency grid whose single entry has three
components is rejected by the encoder (the matmul contraction fails with an
error) instead of being accepted with the extra component ignored, while the
grid truncated to its first two components succeeds. -/
theorem compute_shifts_higher_dim_cex :
    compute_shifts [[1, 2, 3]] [5, 7] = .error matmulErrMsg ∧
    compute_shifts [[(1 : ℝ), 2]] [5, 7] =
      .ok (List.map (fun t => Complex.exp (-Complex.I * (2 * (Real.pi : ℂ) * (t : ℂ))))
        [dotList [1, 2] [5, 7]]) :=
  ⟨rfl, rfl⟩

/-- C9 amended: the encoder requires every frequency entry to have exactly
two components — a grid containing an entry of any other arity makes the
matmul contraction fail, so `compute_shifts` reports an error rather than
using the first two components.  The first-two-components truncation in the
design applies to the pose's 3-vector offset: `Pose.shifts` passes
`offset[0:2]` together with the unmodified grid to `compute_shifts`. -/
theorem compute_shifts_entry_dim_amended (freqs : List (List ℝ)) (x y ox oy oz : ℝ)
    (e : List ℝ) (he : e ∈ freqs) (hlen : e.length ≠ 2) :
    (∃ msg, compute_shifts freqs [x, y] = .error msg) ∧
    Pose.shifts ox oy oz freqs = compute_shifts freqs [ox, oy] := by
  refine ⟨?_, rfl⟩
  obtain ⟨msg, hmsg⟩ := matmulVec_error_of_mem [x, y] freqs e he (by
    intro hcon
    exact hlen (by simpa using hcon))
  exact ⟨msg, by simp only [compute_shifts, hmsg]⟩

/-- Witness for the amended C9 on the three-component grid. -/
theorem compute_shifts_entry_dim_amended_witness :
    (∃ msg, compute_shifts [[1, 2, 3]] [5, 7] = .error msg) ∧
    Pose.shifts 4 6 9 [[1, 2, 3]] = compute_shifts [[1, 2, 3]] [4, 6] :=
  compute_shifts_entry_dim_amended [[1, 2, 3]] 5 7 4 6 9 [1, 2, 3]
    (List.mem_cons_self _ _) (by decide)

/-! Euler parameterization. -/

theorem axisRotationGetter_valid (c : Char) (h : c = 'x' ∨ c = 'y' ∨ c = 'z') :
    axisRotationGetter c = .ok (axisRotationFor c) := by
  rcases h with rfl | rfl | rfl <;> rfl

/-- C1: for every angles and flags, with a convention naming three axis
characters, the Euler parameterization (`EulerPose.rotation`) produces: the
angles converted from degrees when `degrees` is set; elementary rotations R1,
R2, R3 about the axes named by the three convention characters with angles
phi, theta, psi; composed as R1∘R2∘R3 when `intrinsic` and R3∘R2∘R1
otherwise; inverted exactly when the `inverse` flag is set. -/
theorem euler_parameterization_spec (view_phi view_theta view_psi : ℝ)
    (c1 c2 c3 : Char) (intrinsic inverse degrees : Bool)
    (h1 : c1 = 'x' ∨ c1 = 'y' ∨ c1 = 'z')
    (h2 : c2 = 'x' ∨ c2 = 'y' ∨ c2 = 'z')
    (h3 : c3 = 'x' ∨ c3 = 'y' ∨ c3 = 'z') :
    EulerPose.rotation view_phi view_theta view_psi (String.mk [c1, c2, c3])
      intrinsic inverse degrees =
    .ok (
      let phi := if degrees then deg2rad view_phi else view_phi
      let theta := if degrees then deg2rad view_theta else view_theta
      let psi := if degrees then deg2rad view_psi else view_psi
      let R1 := axisRotationFor c1 phi
      let R2 := axisRotationFor c2 theta
      let R3 := axisRotationFor c3 psi
      let C := if intrinsic then (R1.mul R2).mul R3 else (R3.mul R2).mul R1
      if inverse then C.inverse else C) := by
  have hs : (String.mk [c1, c2, c3]).toList = [c1, c2, c3] := rfl
  simp only [EulerPose.rotation, make_euler_rotation, hs, gatherRotations,
    axisRotationGetter_valid c1 h1, axisRotationGetter_valid c2 h2,
    axisRotationGetter_valid c3 h3]

/-- Witness for C1: the default zyz convention at angles (10, 20, 30) with
`intrinsic`, no inverse, no degree conversion. -/
theorem euler_parameterization_spec_witness :
    EulerPose.rotation 10 20 30 (String.mk ['z', 'y', 'z']) true false false =
    .ok (
      let phi := if false then deg2rad 10 else (10 : ℝ)
      let theta := if false then deg2rad 20 else (20 : ℝ)
      let psi := if false then deg2rad 30 else (30 : ℝ)
      let R1 := axisRotationFor 'z' phi
      let R2 := axisRotationFor 'y' theta
      let R3 := axisRotationFor 'z' psi
      let C := if true then (R1.mul R2).mul R3 else (R3.mul R2).mul R1
      if false then C.inverse else C) :=
  euler_parameterization_spec 10 20 30 'z' 'y' 'z' true false false
    (Or.inr (Or.inr rfl)) (Or.inr (Or.inl rfl)) (Or.inr (Or.inr rfl))

theorem gatherRotations_ok_of_valid :
    ∀ l : List Char, (∀ c ∈ l, c = 'x' ∨ c = 'y' ∨ c = 'z') →
      gatherRotations l = .ok (l.map axisRotationFor) := by
  intro l
  induction l with
  | nil => intro _; rfl
  | cons c rest ih =>
    intro h
    simp only [gatherRotations, axisRotationGetter_valid c (h c (List.mem_cons_self c rest)),
      ih fun d hd => h d (List.mem_cons_of_mem c hd), List.map]

theorem gatherRotations_error_of_invalid :
    ∀ l : List Char, (∃ c ∈ l, ¬(c = 'x' ∨ c = 'y' ∨ c = 'z')) →
      ∃ msg, gatherRotations l = .error msg := by
  intro l
  induction l with
  | nil =>
    rintro ⟨c, hc, -⟩
    exact absurd hc (List.not_mem_nil c)
  | cons d rest ih =>
    rintro ⟨c, hc, hinv⟩
    by_cases hd : d = 'x' ∨ d = 'y' ∨ d = 'z'
    · have hcr : c ∈ rest := by
        rcases List.mem_cons.mp hc with h1 | h1
        · subst h1; exact absurd hd hinv
        · exact h1
      obtain ⟨msg, hmsg⟩ := ih ⟨c, hcr, hinv⟩
      exact ⟨msg, by simp only [gatherRotations, axisRotationGetter_valid d hd, hmsg]⟩
    · push_neg at hd
      refine ⟨attrErrMsg, ?_⟩
      have hget : axisRotationGetter d = .error attrErrMsg := by
        simp only [axisRotationGetter, if_neg hd.1, if_neg hd.2.1, if_neg hd.2.2]
      simp only [gatherRotations, hget]

/-- C7 counterexample: the four-character convention "zyzz" does not name
exactly three characters from x, y, z, yet it is accepted: a rotation is
built from its first three characters instead of a configuration error being
reported. -/
theorem euler_convention_cex :
    make_euler_rotation 1 0 0 "zyzz" true false =
      .ok (((SO3.from_z_radians 1).mul (SO3.from_y_radians 0)).mul (SO3.from_z_radians 0)) :=
  rfl

/-- C7 amended: a convention containing a character outside x, y, z, or
having fewer than three characters, is rejected at first use (as an
attribute/index error); but a convention of three OR MORE valid axis
characters is accepted, with only its first three characters used — length
above three is not checked. -/
theorem euler_convention_amended (phi theta psi : ℝ) (intrinsic degrees : Bool)
    (convention : String) :
    ((∀ c ∈ convention.toList, c = 'x' ∨ c = 'y' ∨ c = 'z') →
      3 ≤ convention.toList.length →
      ∃ R, make_euler_rotation phi theta psi convention intrinsic degrees = .ok R) ∧
    ((∃ c ∈ convention.toList, ¬(c = 'x' ∨ c = 'y' ∨ c = 'z')) ∨
        convention.toList.length < 3 →
      ∃ msg, make_euler_rotation phi theta psi convention intrinsic degrees = .error msg) := by
  obtain ⟨l, rfl⟩ : ∃ l, convention = String.mk l := ⟨convention.data, rfl⟩
  have htl : (String.mk l).toList = l := rfl
  constructor
  · intro hall hlen
    rw [htl] at hall hlen
    obtain ⟨a, b, c, rest, rfl⟩ : ∃ a b c rest, l = a :: b :: c :: rest := by
      rcases l with _ | ⟨a, _ | ⟨b, _ | ⟨c, rest⟩⟩⟩
      · simp at hlen
      · simp at hlen
      · simp at hlen
      · exact ⟨a, b, c, rest, rfl⟩
    refine ⟨if intrinsic then
        ((axisRotationFor a (if degrees then deg2rad phi else phi)).mul
          (axisRotationFor b (if degrees then deg2rad theta else theta))).mul
          (axisRotationFor c (if degrees then deg2rad psi else psi))
      else
        ((axisRotationFor c (if degrees then deg2rad psi else psi)).mul
          (axisRotationFor b (if degrees then deg2rad theta else theta))).mul
          (axisRotationFor a (if degrees then deg2rad phi else phi)), ?_⟩
    simp only [make_euler_rotation, htl, gatherRotations_ok_of_valid _ hall, List.map]
  · intro hbad
    rcases hbad with hinv | hshort
    · rw [htl] at hinv
      obtain ⟨msg, hmsg⟩ := gatherRotations_error_of_invalid l hinv
      exact ⟨msg, by simp only [make_euler_rotation, htl, hmsg]⟩
    · rw [htl] at hshort
      by_cases hval : ∀ c ∈ l, c = 'x' ∨ c = 'y' ∨ c = 'z'
      · refine ⟨indexErrMsg, ?_⟩
        rcases l with _ | ⟨a, _ | ⟨b, _ | ⟨c, rest⟩⟩⟩
        · simp only [make_euler_rotation, htl, gatherRotations_ok_of_valid _ hval, List.map]
        · simp only [make_euler_rotation, htl, gatherRotations_ok_of_valid _ hval, List.map]
        · simp only [make_euler_rotation, htl, gatherRotations_ok_of_valid _ hval, List.map]
        · simp only [List.length_cons] at hshort
          omega
      · push_neg at hval
        obtain ⟨c, hc, hcinv⟩ := hval
        obtain ⟨msg, hmsg⟩ := gatherRotations_error_of_invalid l
          ⟨c, hc, not_or.mpr ⟨hcinv.1, not_or.mpr ⟨hcinv.2.1, hcinv.2.2⟩⟩⟩
        exact ⟨msg, by simp only [make_euler_rotation, htl, hmsg]⟩

/-- Witness for the amended C7: "zyz" is accepted, the two-character "zq" is
rejected. -/
theorem euler_convention_amended_witness :
    (∃ R, make_euler_rotation 1 2 3 "zyz" true false = .ok R) ∧
    (∃ msg, make_euler_rotation 1 2 3 "zy" true false = .error msg) :=
  ⟨(euler_convention_amended 1 2 3 true false "zyz").1 (by decide) (by decide),
   (euler_convention_amended 1 2 3 true false "zy").2 (Or.inr (by decide))⟩

/-! Shape handling of the batched coordinate transform. -/

/-- C3 counterexample: a rank-3 Coordinate Set is rejected, but the error
message names only the two accepted forms, not the received shape; and an
array of shape (N, 4) is not rejected with that error at all — the rank-2
branch accepts it and it fails inside the vmapped per-row apply with a
different error. -/
theorem rotate_shape_error_cex :
    rotate_coordinates ⟨[2, 2, 3], [0, 0, 0, 0, 0, 0, 0, 0, 0, 0, 0, 0]⟩ ⟨1, 0, 0, 0⟩ =
      .error invalidShapeMsg ∧
    strContains "(2, 2, 3)" invalidShapeMsg = false ∧
    rotate_coordinates ⟨[1, 4], [1, 2, 3, 4]⟩ ⟨1, 0, 0, 0⟩ = .error applyErrMsg ∧
    applyErrMsg ≠ invalidShapeMsg :=
  ⟨rfl, by decide, rfl, by decide⟩

/-- C3 amended: an input whose rank is neither 2 nor 4 makes
`rotate_coordinates` fail with the `ValueError` whose message names the two
accepted forms (but not the received shape), producing no other output; an
array of shape (N, 4) with at least one row passes the rank check and
instead fails row-wise in the rotation's apply, which requires 3-vectors. -/
theorem rotate_shape_error_amended (coords : Arr) (rotation : SO3) :
    (coords.shape.length ≠ 2 → coords.shape.length ≠ 4 →
      rotate_coordinates coords rotation = .error invalidShapeMsg) ∧
    (∀ n : ℕ, coords.shape = [n, 4] → coords.data.length = n * 4 → n ≠ 0 →
      rotate_coordinates coords rotation = .error applyErrMsg) := by
  obtain ⟨shape, data⟩ := coords
  constructor
  · intro h2 h4
    rcases shape with _ | ⟨a, _ | ⟨b, _ | ⟨c, _ | ⟨d, _ | ⟨e, rest⟩⟩⟩⟩⟩
    · rfl
    · rfl
    · simp at h2
    · rfl
    · simp at h4
    · rfl
  · intro n hs hlen hn
    simp only at hs
    subst hs
    simp only at hlen
    obtain ⟨a, b, c, d, rest, rfl⟩ : ∃ a b c d rest, data = a :: b :: c :: d :: rest := by
      rcases data with _ | ⟨a, _ | ⟨b, _ | ⟨c, _ | ⟨d, rest⟩⟩⟩⟩
      · exfalso; simp only [List.length_nil] at hlen; omega
      · exfalso; simp only [List.length_cons, List.length_nil] at hlen; omega
      · exfalso; simp only [List.length_cons, List.length_nil] at hlen; omega
      · exfalso; simp only [List.length_cons, List.length_nil] at hlen; omega
      · exact ⟨a, b, c, d, rest, rfl⟩
    rfl

/-- Witness for the amended C3 on a rank-3 array and a (1, 4) array. -/
theorem rotate_shape_error_amended_witness :
    (rotate_coordinates ⟨[1, 1, 3], [7, 8, 9]⟩ ⟨1, 0, 0, 0⟩ = .error invalidShapeMsg) ∧
    (rotate_coordinates ⟨[1, 4], [7, 8, 9, 10]⟩ ⟨1, 0, 0, 0⟩ = .error applyErrMsg) :=
  ⟨(rotate_shape_error_amended ⟨[1, 1, 3], [7, 8, 9]⟩ ⟨1, 0, 0, 0⟩).1
      (by decide) (by decide),
   (rotate_shape_error_amended ⟨[1, 4], [7, 8, 9, 10]⟩ ⟨1, 0, 0, 0⟩).2 1
      rfl rfl (by decide)⟩

/-! Default-argument mismatch between the two Euler entry points. -/

/-- C10: with all defaults, `EulerPose` interprets its angles in degrees
while the standalone `make_euler_rotation` interprets them in radians, so the
two produce different rotations at the angle triple (180, 0, 0): the pose
gives the quaternion (0, 0, 0, 1) (a half-turn about z), while the bare
helper gives (cos 90, 0, 0, sin 90) with 90 in radians, and cos 90 ≠ 0 since
90 is not an odd multiple of π/2 (π being irrational). -/
theorem euler_defaults_disagree :
    EulerPose.rotation_defaults 180 0 0 ≠ make_euler_rotation_defaults 180 0 0 := by
  have hL0 : EulerPose.rotation_defaults 180 0 0 =
      .ok (((SO3.from_z_radians (deg2rad 180)).mul (SO3.from_y_radians (deg2rad 0))).mul
        (SO3.from_z_radians (deg2rad 0))) := rfl
  have hR0 : make_euler_rotation_defaults 180 0 0 =
      .ok (((SO3.from_z_radians 180).mul (SO3.from_y_radians 0)).mul
        (SO3.from_z_radians 0)) := rfl
  have h180 : deg2rad 180 = Real.pi := by
    show (180 : ℝ) * (Real.pi / 180) = Real.pi
    ring
  have h0 : deg2rad 0 = 0 := by
    show (0 : ℝ) * (Real.pi / 180) = 0
    ring
  have hq1 : ((SO3.from_z_radians Real.pi).mul (SO3.from_y_radians 0)).mul
      (SO3.from_z_radians 0) = ⟨0, 0, 0, 1⟩ := by
    simp only [SO3.from_z_radians, SO3.from_y_radians, SO3.mul, SO3.mk.injEq]
    norm_num [Real.cos_pi_div_two, Real.sin_pi_div_two]
  have hq2 : ((SO3.from_z_radians 180).mul (SO3.from_y_radians 0)).mul
      (SO3.from_z_radians 0) = ⟨Real.cos 90, 0, 0, Real.sin 90⟩ := by
    simp only [SO3.from_z_radians, SO3.from_y_radians, SO3.mul, SO3.mk.injEq]
    norm_num
  intro hEq
  rw [hL0, hR0, h180, h0, hq1, hq2, Except.ok.injEq] at hEq
  have hw : (0 : ℝ) = Real.cos 90 := congrArg SO3.w hEq
  have hc : Real.cos (90 : ℝ) = 0 := hw.symm
  rw [Real.cos_eq_zero_iff] at hc
  obtain ⟨k, hk⟩ := hc
  have hk0 : (2 * k + 1 : ℤ) ≠ 0 := by omega
  have hkr : (2 * (k : ℝ) + 1) ≠ 0 := by exact_mod_cast hk0
  have hpi : Real.pi = 180 / (2 * (k : ℝ) + 1) := by
    rw [eq_div_iff hkr]
    nlinarith [hk]
  exact (irrational_pi) ⟨(180 : ℚ) / (2 * (k : ℚ) + 1), by push_cast; rw [hpi]⟩
